import Mathlib

/-!
NSMBW-Decomp, `cLib/c_math.cpp` and `cLib/c_tree.h`.

A shallow embedding of

* `cM::rad2i` / `cM::rad2s` (`source/dol/cLib/c_math.cpp`): conversion of an
  angle in radians to the 16-bit angle unit (65536 units per turn);
* `cTreeNd_c` / `cTreeMg_c` (`include/dol/cLib/c_tree.h`): the intrusive tree
  node and its manager.

Machine integers are `Int` with explicit two's-complement wrapping.  Finite
binary floating-point values are exact dyadic numbers `mant * 2 ^ exp`; every
floating-point operation is the exact operation followed by the IEEE-754
round-to-nearest-even of the destination format, so no real or rational
approximation enters the model.
-/

/-! ## Machine integers -/

/-- Two's-complement reduction of an integer to `int` (32 bits). -/
def wrapS32 (x : Int) : Int := (x + 2147483648) % 4294967296 - 2147483648

/-- The cast `(s16)x`: two's-complement reduction to 16 bits. -/
def castS16 (x : Int) : Int := (x + 32768) % 65536 - 32768

/-- Membership in the range of `int`. -/
def isS32 (x : Int) : Prop := -2147483648 ≤ x ∧ x ≤ 2147483647

instance (x : Int) : Decidable (isS32 x) := by unfold isS32; infer_instance

/-! ## Finite binary floating-point values -/

/-- A finite binary floating-point value `mant * 2 ^ exp`. -/
structure Dyad where
  mant : Int
  exp : Int
  deriving DecidableEq, Repr

namespace Dyad

/-- The rational number denoted by a dyadic value. -/
def toRat (x : Dyad) : ℚ := x.mant * (2 : ℚ) ^ x.exp

/-- Exact product of two dyadic values. -/
def mul (x y : Dyad) : Dyad := ⟨x.mant * y.mant, x.exp + y.exp⟩

/-- Number of binary digits of `n`, by repeated halving; `fuel` bounds the
number of halvings. -/
def bitLengthAux : Nat → Nat → Nat
  | 0, _ => 0
  | fuel + 1, n => if n = 0 then 0 else bitLengthAux fuel (n / 2) + 1

/-- Number of binary digits of a natural number (`0` for `0`). -/
def bitLength (n : Nat) : Nat := bitLengthAux n n

/-- IEEE-754 round-to-nearest, ties-to-even, of an exact dyadic value to the
binary format with `prec` significand bits, least quantum `2 ^ qmin` and
values below `2 ^ emax`.  `none` stands for a result that is not finite
(overflow to infinity). -/
def roundNE (prec : Nat) (qmin emax : Int) (x : Dyad) : Option Dyad :=
  let n := x.mant.natAbs
  if n = 0 then some ⟨0, 0⟩ else
  let q : Int := max (x.exp + (bitLength n : Int) - (prec : Int)) qmin
  let r : Dyad :=
    if q ≤ x.exp then x
    else
      let s := (q - x.exp).toNat
      let k := n / 2 ^ s
      let rest := n % 2 ^ s
      let half := 2 ^ (s - 1)
      let up : Bool := decide (half < rest) || (decide (rest = half) && decide (k % 2 = 1))
      ⟨x.mant.sign * ((if up then k + 1 else k : Nat) : Int), q⟩
  if r.exp + (bitLength r.mant.natAbs : Int) ≤ emax then some r else none

/-- Rounding to `float` (binary32). -/
def roundF32 (x : Dyad) : Option Dyad := roundNE 24 (-149) 128 x

/-- Rounding to `double` (binary64). -/
def roundF64 (x : Dyad) : Option Dyad := roundNE 53 (-1074) 1024 x

/-- Conversion of a finite floating-point value to `int`: truncation toward
zero, saturating at the ends of the `int` range (the PowerPC `fctiwz`
instruction the cast compiles to). -/
def toInt (x : Dyad) : Int :=
  let t : Int := if 0 ≤ x.exp then x.mant * 2 ^ x.exp.toNat
                 else Int.tdiv x.mant (2 ^ (-x.exp).toNat)
  if t < -2147483648 then -2147483648 else if 2147483647 < t then 2147483647 else t

end Dyad

/-- Modelled from the spec: `fmod` of `lib/msl_c/math.h`, the C library
remainder, whose body is not part of the sources.  "standard floating-point
remainder semantics": the result is `x - n * y` for `n` the quotient `x / y`
truncated toward zero, it has the sign of `x`, and it is exact.  A zero
divisor gives no finite result (`none`). -/
def fmod (x y : Dyad) : Option Dyad :=
  if y.mant = 0 then none else
  let e := min x.exp y.exp
  let X := x.mant * 2 ^ (x.exp - e).toNat
  let Y := y.mant * 2 ^ (y.exp - e).toNat
  some ⟨Int.tmod X Y, e⟩

namespace cM

/-- The `double` literal `6.2831854820251465`. -/
def twoPi : Dyad := ⟨13176795, -21⟩

/-- The `float` literal `10430.378f`. -/
def multiplier : Dyad := ⟨10680707, -10⟩

/-- The function `cM::rad2i`, as compiled by default (the `#else` branch), on
a finite `float` argument: `remainder` is the `fmod` result converted to
`float`, `fmuls` is the single-precision product, and the result is its
conversion to `int`.  `none` is a non-finite intermediate value. -/
def rad2i (radians : Dyad) : Option Int := do
  let d ← fmod radians twoPi
  let remainder ← Dyad.roundF32 d
  let product ← Dyad.roundF32 (Dyad.mul remainder multiplier)
  pure (Dyad.toInt product)

/-- The function `cM::rad2i` under `NON_MATCHING` (the `#ifdef` branch): the
`float` constant is promoted to `double`, the product is a `double` product,
and the result is its conversion to `int`. -/
def rad2i_NON_MATCHING (radians : Dyad) : Option Int := do
  let d ← fmod radians twoPi
  let product ← Dyad.roundF64 (Dyad.mul multiplier d)
  pure (Dyad.toInt product)

/-- The wrap step of `cM::rad2s`: the `if` / `else if` on `converted`, in
`int` arithmetic. -/
def wrapStep (converted : Int) : Int :=
  if converted < -0x8000 then wrapS32 (converted + 0x10000)
  else if converted > 0x7FFF then wrapS32 (converted - 0x10000)
  else converted

/-- The body of `cM::rad2s` from the value of `converted` on: the wrap step
and the final `(s16)` cast. -/
def rad2sOfInt (converted : Int) : Int := castS16 (wrapStep converted)

/-- The function `cM::rad2s`. -/
def rad2s (radians : Dyad) : Option Int := (rad2i radians).map rad2sOfInt

/-- The function `cM::rad2s` built with `NON_MATCHING`. -/
def rad2s_NON_MATCHING (radians : Dyad) : Option Int :=
  (rad2i_NON_MATCHING radians).map rad2sOfInt

/-- The `float` closest to pi, `0x40490FDB`. -/
def piF : Dyad := ⟨13176795, -22⟩

/-- The `float` zero. -/
def zeroF : Dyad := ⟨0, 0⟩

/-- The `float` closest to `-pi/2`. -/
def negHalfPiF : Dyad := ⟨-13176795, -23⟩

/-- The `float` closest to `3*pi/2`. -/
def threeHalfPiF : Dyad := ⟨9882596, -21⟩

end cM

/-! ## The intrusive tree -/

/-- The class `cTreeNd_c`: its four link fields.  A pointer is `none` (null)
or `some a`, the node stored at address `a`. -/
structure cTreeNd_c where
  mpParent : Option Nat
  mpChild : Option Nat
  mpPrev : Option Nat
  mpNext : Option Nat
  deriving DecidableEq, Repr

/-- The class `cTreeMg_c`: its single field. -/
structure cTreeMg_c where
  mpRootNode : Option Nat
  deriving DecidableEq, Repr

/-- The memory the nodes live in: the node object at each address. -/
abbrev Store := Nat → cTreeNd_c

namespace Store

/-- The assignment `a->mpParent = v`. -/
def setParent (s : Store) (a : Nat) (v : Option Nat) : Store :=
  fun b => if b = a then { s b with mpParent := v } else s b

/-- The assignment `a->mpChild = v`. -/
def setChild (s : Store) (a : Nat) (v : Option Nat) : Store :=
  fun b => if b = a then { s b with mpChild := v } else s b

/-- The assignment `a->mpPrev = v`. -/
def setPrev (s : Store) (a : Nat) (v : Option Nat) : Store :=
  fun b => if b = a then { s b with mpPrev := v } else s b

/-- The assignment `a->mpNext = v`. -/
def setNext (s : Store) (a : Nat) (v : Option Nat) : Store :=
  fun b => if b = a then { s b with mpNext := v } else s b

end Store

namespace cTreeNd_c

/-- Modelled from the spec: the constructor `cTreeNd_c::cTreeNd_c`, declared
in `c_tree.h` without a body.  "a node is constructed in a detached state (all
four links empty)". -/
def ctor : cTreeNd_c := ⟨none, none, none, none⟩

/-- Modelled from the spec: the state `Detached` of a node, "all links
empty". -/
def isDetached (n : cTreeNd_c) : Bool :=
  n.mpParent.isNone && n.mpChild.isNone && n.mpPrev.isNone && n.mpNext.isNone

/-- Modelled from the spec: the upward walk inside
`cTreeNd_c::getTreeNextNotChild`, whose body is not part of the sources.  From
the ancestor `cur` it "walks up through ancestors returning the first
ancestor's next sibling found, else empty".  `fuel` bounds the number of
ancestors visited; the outer `none` is an exhausted bound, `some none` is the
null result. -/
def ancestorNext (s : Store) : Nat → Option Nat → Option (Option Nat)
  | _, none => some none
  | 0, some _ => none
  | fuel + 1, some a =>
    match (s a).mpNext with
    | some n => some (some n)
    | none => ancestorNext s fuel (s a).mpParent

/-- Modelled from the spec: `cTreeNd_c::getTreeNextNotChild`, declared in
`c_tree.h` without a body.  "returns `this`'s next sibling if present, else
walks up through ancestors returning the first ancestor's next sibling found,
else empty". -/
def getTreeNextNotChild (s : Store) (fuel : Nat) (this : Nat) : Option (Option Nat) :=
  match (s this).mpNext with
  | some n => some (some n)
  | none => ancestorNext s fuel (s this).mpParent

/-- Modelled from the spec: `cTreeNd_c::getTreeNext`, declared in `c_tree.h`
without a body.  "the first child if one exists, otherwise the nearest
ancestor-or-self's next sibling, otherwise empty". -/
def getTreeNext (s : Store) (fuel : Nat) (this : Nat) : Option (Option Nat) :=
  match (s this).mpChild with
  | some c => some (some c)
  | none => getTreeNextNotChild s fuel this

end cTreeNd_c

namespace cTreeMg_c

/-- Modelled from the spec: `cTreeMg_c::addTreeNode`, declared in `c_tree.h`
without a body.  The node "is inserted at the head of `parent`'s child list
(becomes the new `firstChild`), with the previous first child becoming its
next sibling"; it "mutates `node.parent`, `node.nextSibling`, and the previous
first child's `previousSibling`, and possibly `manager.rootNode`"; a null
`parent` makes the node the root.  The failure condition is the spec's
"strictest safe interpretation": a null node, a node that is already attached
(a link set, or the current root) and a second root are rejected with no
mutation. -/
def addTreeNode (mg : cTreeMg_c) (s : Store) (node parent : Option Nat) :
    Bool × cTreeMg_c × Store :=
  match node with
  | none => (false, mg, s)
  | some n =>
    if !(s n).isDetached || mg.mpRootNode = some n then (false, mg, s)
    else
      match parent with
      | none =>
        if mg.mpRootNode.isSome then (false, mg, s)
        else (true, { mg with mpRootNode := some n }, s)
      | some p =>
        let old := (s p).mpChild
        let s1 := s.setParent n (some p)
        let s2 := s1.setNext n old
        let s3 := match old with
          | some c => s2.setPrev c (some n)
          | none => s2
        (true, mg, s3.setChild p (some n))

end cTreeMg_c

/-! ### The tree a store represents -/

/-- A forest in first-child / next-sibling form: `node a kids sibs` is the
node at address `a`, followed by its children `kids` and by its later
siblings `sibs`. -/
inductive Forest where
  | nil : Forest
  | node (a : Nat) (kids sibs : Forest) : Forest
  deriving DecidableEq, Repr

namespace Forest

/-- The first node of a sibling list, null for the empty list. -/
def first : Forest → Option Nat
  | nil => none
  | node a _ _ => some a

/-- The first node of a sibling list, or `k` for the empty list. -/
def entry : Forest → Option Nat → Option Nat
  | nil, k => k
  | node a _ _, _ => some a

/-- The nodes in pre-order: a node, then its subtrees, then its later siblings. -/
def preorder : Forest → List Nat
  | nil => []
  | node a kids sibs => a :: (preorder kids ++ preorder sibs)

/-- Number of nodes. -/
def size : Forest → Nat
  | nil => 0
  | node _ kids sibs => 1 + size kids + size sibs

/-- Number of levels. -/
def height : Forest → Nat
  | nil => 0
  | node _ kids sibs => max (1 + height kids) (height sibs)

/-- The store `s` holds the sibling list `f` whose nodes have parent `p` and
whose first node has previous sibling `q`: the four links of each node are
those of its place in the forest. -/
def Linked (s : Store) : Option Nat → Option Nat → Forest → Prop
  | _, _, nil => True
  | p, q, node a kids sibs =>
    (s a).mpParent = p ∧ (s a).mpPrev = q ∧
    (s a).mpChild = first kids ∧ (s a).mpNext = first sibs ∧
    Linked s (some a) none kids ∧ Linked s p (some a) sibs

instance Linked.decide (s : Store) : (p q : Option Nat) → (f : Forest) → Decidable (Linked s p q f)
  | _, _, nil => isTrue trivial
  | p, q, node a kids sibs =>
    have := Linked.decide s (some a) none kids
    have := Linked.decide s p (some a) sibs
    by unfold Linked; infer_instance

/-- A well-formed tree: one root without parent or sibling, the store holds
the links of the forest, the manager points to the root, and the nodes are
pairwise distinct. -/
def WellFormed (mg : cTreeMg_c) (s : Store) (t : Forest) : Prop :=
  (∃ r kids, t = node r kids nil) ∧ mg.mpRootNode = first t ∧
  Linked s none none t ∧ (preorder t).Nodup

/-- The children of node `a` and the node that follows the subtree of `a`:
the next sibling of `a` if present, else the next sibling of the nearest
ancestor that has one, else `k`, what follows the whole forest. -/
def locate : Forest → Option Nat → Nat → Option (Forest × Option Nat)
  | nil, _, _ => none
  | node b kids sibs, k, a =>
    if b = a then some (kids, entry sibs k)
    else
      match locate kids (entry sibs k) a with
      | some r => some r
      | none => locate sibs k a

end Forest

/-- Iteration of `getTreeNext` from `cur` until it returns null, collecting
the nodes visited.  `steps` bounds the number of calls and `fuel` the upward
walk of each call; `none` is an exhausted bound, so `some l` says that the
iteration ended with a null result after visiting `l`. -/
def treeWalk (s : Store) (fuel : Nat) : Nat → Option Nat → Option (List Nat)
  | _, none => some []
  | 0, some _ => none
  | steps + 1, some a =>
    match cTreeNd_c.getTreeNext s fuel a with
    | none => none
    | some nx => (treeWalk s fuel steps nx).map (fun l => a :: l)

/-- The store with every node detached. -/
def emptyStore : Store := fun _ => cTreeNd_c.ctor

/-- A manager without root. -/
def emptyMg : cTreeMg_c := ⟨none⟩

/-- The tree with root 0 and one child 1, built by two insertions. -/
def exampleStart : Bool × cTreeMg_c × Store :=
  let r0 := cTreeMg_c.addTreeNode emptyMg emptyStore (some 0) none
  cTreeMg_c.addTreeNode r0.2.1 r0.2.2 (some 1) (some 0)

/-- The tree built from `exampleStart` by adding 2 under 0, then 3 under 2
and 4 under 3. -/
def exampleTree : Bool × cTreeMg_c × Store :=
  let r2 := cTreeMg_c.addTreeNode exampleStart.2.1 exampleStart.2.2 (some 2) (some 0)
  let r3 := cTreeMg_c.addTreeNode r2.2.1 r2.2.2 (some 3) (some 2)
  cTreeMg_c.addTreeNode r3.2.1 r3.2.2 (some 4) (some 3)

/-- The forest of `exampleTree`: root 0 with children 2, 1; node 2 with
child 3; node 3 with child 4. -/
def exampleForest : Forest :=
  .node 0 (.node 2 (.node 3 (.node 4 .nil .nil) .nil) (.node 1 .nil .nil)) .nil

/-! ## The floating-point model: general facts -/

namespace Dyad

theorem bitLengthAux_zero (fuel : Nat) : bitLengthAux fuel 0 = 0 := by
  cases fuel <;> simp [bitLengthAux]

theorem bitLengthAux_spec (fuel : Nat) :
    ∀ n, n ≤ fuel → n ≠ 0 →
      2 ^ (bitLengthAux fuel n - 1) ≤ n ∧ n < 2 ^ bitLengthAux fuel n := by
  induction fuel with
  | zero => intro n h h0; omega
  | succ f ih =>
    intro n h h0
    simp only [bitLengthAux, h0, if_false, Nat.add_sub_cancel]
    by_cases h2 : n / 2 = 0
    · rw [h2, bitLengthAux_zero]
      have : n = 1 := by omega
      subst this; simp
    · obtain ⟨hlo, hhi⟩ := ih (n / 2) (by omega) h2
      have hpos : 1 ≤ bitLengthAux f (n / 2) := by
        rcases Nat.eq_zero_or_pos (bitLengthAux f (n / 2)) with h | h
        · rw [h] at hhi; simp at hhi; omega
        · exact h
      obtain ⟨b, hb⟩ : ∃ b, bitLengthAux f (n / 2) = b + 1 := ⟨_, (Nat.sub_add_cancel hpos).symm⟩
      rw [hb] at hlo hhi ⊢
      simp only [Nat.add_sub_cancel] at hlo
      rw [pow_succ] at hhi ⊢
      rw [pow_succ]
      constructor <;> omega

/-- The number `bitLength n` is the number of binary digits of `n`. -/
theorem bitLength_spec (n : Nat) (h : n ≠ 0) :
    2 ^ (bitLength n - 1) ≤ n ∧ n < 2 ^ bitLength n :=
  bitLengthAux_spec n n (le_refl n) h

theorem bitLength_zero : bitLength 0 = 0 := rfl

theorem two_zpow_split (a b : Int) (h : b ≤ a) :
    ((2 : ℚ) ^ (a - b).toNat) * (2 : ℚ) ^ b = (2 : ℚ) ^ a := by
  rw [← zpow_natCast, Int.toNat_of_nonneg (by omega), ← zpow_add₀ (by norm_num)]
  congr 1
  omega

theorem two_zpow_pos (a : Int) : (0 : ℚ) < (2 : ℚ) ^ a := by positivity

/-- Absolute value of a dyadic value. -/
theorem abs_toRat (x : Dyad) : |toRat x| = (x.mant.natAbs : ℚ) * (2 : ℚ) ^ x.exp := by
  unfold toRat
  rw [abs_mul, abs_of_pos (two_zpow_pos _)]
  congr 1
  rw [Nat.cast_natAbs, Int.cast_abs]

/-- A nonzero value is at least the power of two of its leading digit. -/
theorem zpow_le_abs_toRat (x : Dyad) (h : x.mant ≠ 0) :
    (2 : ℚ) ^ (x.exp + (bitLength x.mant.natAbs : Int) - 1) ≤ |toRat x| := by
  have hn : x.mant.natAbs ≠ 0 := by simpa using h
  have hb := (bitLength_spec _ hn).1
  have hpos : 1 ≤ bitLength x.mant.natAbs := by
    rcases Nat.eq_zero_or_pos (bitLength x.mant.natAbs) with h0 | h0
    · have := (bitLength_spec _ hn).2; rw [h0] at this; simp at this; omega
    · exact h0
  rw [abs_toRat]
  have e : x.exp + (bitLength x.mant.natAbs : Int) - 1
      = ((bitLength x.mant.natAbs - 1 : Nat) : Int) + x.exp := by
    rw [Nat.cast_sub hpos]; push_cast; ring
  rw [e, zpow_add₀ (by norm_num), zpow_natCast]
  apply mul_le_mul_of_nonneg_right _ (two_zpow_pos _).le
  exact_mod_cast hb

/-- The rounding decision on integers: the rounded quotient `k` of `n` by
`2 ^ s` is within half a unit of it and does not jump over a multiple of
`2 ^ s`. -/
theorem round_quotient (n s : Nat) (hs : 1 ≤ s) (k : Nat)
    (hk : k = if (decide (2 ^ (s - 1) < n % 2 ^ s) ||
        (decide (n % 2 ^ s = 2 ^ (s - 1)) && decide (n / 2 ^ s % 2 = 1))) = true
      then n / 2 ^ s + 1 else n / 2 ^ s) :
    2 * (k * 2 ^ s) ≤ 2 * n + 2 ^ s ∧ 2 * n ≤ 2 * (k * 2 ^ s) + 2 ^ s ∧
    ∀ M, n ≤ M * 2 ^ s → k ≤ M := by
  obtain ⟨t, rfl⟩ : ∃ t, s = t + 1 := ⟨s - 1, by omega⟩
  simp only [Nat.add_sub_cancel] at hk
  have hD : 2 ^ (t + 1) = 2 * 2 ^ t := by rw [pow_succ]; ring
  have hP : 0 < 2 ^ t := by positivity
  have hdm := Nat.div_add_mod n (2 ^ (t + 1))
  have hlt := Nat.mod_lt n (show 0 < 2 ^ (t + 1) by positivity)
  generalize hq : n / 2 ^ (t + 1) = q at *
  generalize hr : n % 2 ^ (t + 1) = r at *
  generalize hp : 2 ^ t = P at *
  rw [hD] at hdm hlt ⊢
  split_ifs at hk with hup
  · rw [hk]
    have hr2 : P ≤ r := by
      simp only [Bool.or_eq_true, Bool.and_eq_true, decide_eq_true_eq] at hup
      rcases hup with h | ⟨h, _⟩ <;> omega
    refine ⟨by nlinarith, by nlinarith, ?_⟩
    intro M hM
    by_contra hc
    have : M ≤ q := by omega
    have : M * (2 * P) ≤ q * (2 * P) := Nat.mul_le_mul_right _ this
    nlinarith
  · rw [hk]
    have hr2 : r ≤ P := by
      simp only [Bool.or_eq_true, Bool.and_eq_true, decide_eq_true_eq, not_or] at hup
      omega
    refine ⟨by nlinarith, by nlinarith, ?_⟩
    intro M hM
    by_contra hc
    have : M + 1 ≤ q := by omega
    have : (M + 1) * (2 * P) ≤ q * (2 * P) := Nat.mul_le_mul_right _ this
    nlinarith


/-- The shape of a rounding: the input is returned as it is when it fits the
quantum `q`, and otherwise the significand is the rounded quotient by
`2 ^ (q - x.exp)`. -/
theorem roundNE_spec (prec : Nat) (qmin emax : Int) (x : Dyad) (hx : x.mant ≠ 0) :
    ∃ r : Dyad,
      roundNE prec qmin emax x =
        (if r.exp + (bitLength r.mant.natAbs : Int) ≤ emax then some r else none) ∧
      (max (x.exp + (bitLength x.mant.natAbs : Int) - (prec : Int)) qmin ≤ x.exp ∧ r = x ∨
       x.exp < r.exp ∧
       r.exp = max (x.exp + (bitLength x.mant.natAbs : Int) - (prec : Int)) qmin ∧
       ∃ k : Nat, r.mant = x.mant.sign * (k : Int) ∧
         2 * (k * 2 ^ (r.exp - x.exp).toNat) ≤ 2 * x.mant.natAbs + 2 ^ (r.exp - x.exp).toNat ∧
         2 * x.mant.natAbs ≤ 2 * (k * 2 ^ (r.exp - x.exp).toNat) + 2 ^ (r.exp - x.exp).toNat ∧
         ∀ M, x.mant.natAbs ≤ M * 2 ^ (r.exp - x.exp).toNat → k ≤ M) := by
  have hn : x.mant.natAbs ≠ 0 := by simpa using hx
  by_cases hq : max (x.exp + (bitLength x.mant.natAbs : Int) - (prec : Int)) qmin ≤ x.exp
  · refine ⟨x, ?_, Or.inl ⟨hq, rfl⟩⟩
    simp only [roundNE, hn, if_false, hq, if_true]
  · have hlt : x.exp < max (x.exp + (bitLength x.mant.natAbs : Int) - (prec : Int)) qmin :=
      not_le.mp hq
    refine ⟨⟨x.mant.sign * ((if (decide (2 ^ ((max (x.exp + (bitLength x.mant.natAbs : Int)
        - (prec : Int)) qmin - x.exp).toNat - 1) < x.mant.natAbs % 2 ^ (max (x.exp +
        (bitLength x.mant.natAbs : Int) - (prec : Int)) qmin - x.exp).toNat) ||
        (decide (x.mant.natAbs % 2 ^ (max (x.exp + (bitLength x.mant.natAbs : Int)
        - (prec : Int)) qmin - x.exp).toNat = 2 ^ ((max (x.exp + (bitLength x.mant.natAbs : Int)
        - (prec : Int)) qmin - x.exp).toNat - 1)) && decide (x.mant.natAbs / 2 ^ (max (x.exp +
        (bitLength x.mant.natAbs : Int) - (prec : Int)) qmin - x.exp).toNat % 2 = 1))) = true
        then x.mant.natAbs / 2 ^ (max (x.exp + (bitLength x.mant.natAbs : Int)
        - (prec : Int)) qmin - x.exp).toNat + 1
        else x.mant.natAbs / 2 ^ (max (x.exp + (bitLength x.mant.natAbs : Int)
        - (prec : Int)) qmin - x.exp).toNat : Nat) : Int),
        max (x.exp + (bitLength x.mant.natAbs : Int) - (prec : Int)) qmin⟩, ?_,
        Or.inr ⟨hlt, rfl, _, rfl, ?_⟩⟩
    · simp only [roundNE, hn, if_false, hq]
    · exact round_quotient _ _ (by dsimp only; omega) _ rfl


theorem natAbs_sign_mul (m : Int) (hm : m ≠ 0) (k : Nat) : (m.sign * (k : Int)).natAbs = k := by
  rw [Int.natAbs_mul, Int.natAbs_sign_of_nonzero hm, one_mul, Int.natAbs_ofNat]

/-- A value bounded by a number with `prec` digits at exponent `b` has its
leading digit below `2 ^ (prec + b)`. -/
theorem exp_add_bitLength_le (x : Dyad) (hx : x.mant ≠ 0) (prec g : Nat) (b : Int)
    (hb : |toRat x| ≤ (g : ℚ) * (2 : ℚ) ^ b) (hg : g < 2 ^ prec) :
    x.exp + (bitLength x.mant.natAbs : Int) ≤ (prec : Int) + b := by
  have h1 := zpow_le_abs_toRat x hx
  have h2 : (g : ℚ) * (2 : ℚ) ^ b < (2 : ℚ) ^ ((prec : Int) + b) := by
    rw [zpow_add₀ (by norm_num), zpow_natCast]
    apply mul_lt_mul_of_pos_right _ (two_zpow_pos _)
    exact_mod_cast hg
  have h3 := lt_of_le_of_lt (le_trans h1 hb) h2
  rw [zpow_lt_zpow_iff_right₀ (by norm_num)] at h3
  omega

/-- Rounding does not cross a representable bound: a value of magnitude at
most `g * 2 ^ b`, with `g` of at most `prec` digits and `b` in the exponent
range, rounds to a finite value of magnitude at most `g * 2 ^ b`. -/
theorem roundNE_bounded (prec : Nat) (qmin emax : Int) (x : Dyad) (g : Nat) (b : Int)
    (hb : |toRat x| ≤ (g : ℚ) * (2 : ℚ) ^ b) (hg : g < 2 ^ prec)
    (hqmin : qmin ≤ b) (he : (prec : Int) + b ≤ emax) :
    ∃ r, roundNE prec qmin emax x = some r ∧ |toRat r| ≤ (g : ℚ) * (2 : ℚ) ^ b := by
  by_cases hx : x.mant = 0
  · refine ⟨⟨0, 0⟩, ?_, ?_⟩
    · simp [roundNE, hx]
    · simp only [toRat, Int.cast_zero, zero_mul, abs_zero]
      positivity
  · obtain ⟨r, hr, hcase⟩ := roundNE_spec prec qmin emax x hx
    have hxe := exp_add_bitLength_le x hx prec g b hb hg
    have key : |toRat r| ≤ (g : ℚ) * (2 : ℚ) ^ b ∧ (r.mant = 0 → r.exp ≤ emax) := by
      rcases hcase with ⟨_, rfl⟩ | ⟨hlt, hq, k, hk, _, _, hM⟩
      · exact ⟨hb, fun h => absurd h hx⟩
      · have hqb : r.exp ≤ b := by
          rw [hq]; exact max_le (by omega) hqmin
        refine ⟨?_, fun _ => by omega⟩
        rw [abs_toRat, hk, natAbs_sign_mul _ hx]
        have hsplit := two_zpow_split b r.exp hqb
        have hsplit2 := two_zpow_split r.exp x.exp hlt.le
        rw [abs_toRat] at hb
        have hn : x.mant.natAbs ≤ (g * 2 ^ (b - r.exp).toNat) * 2 ^ (r.exp - x.exp).toNat := by
          have : (x.mant.natAbs : ℚ) * (2 : ℚ) ^ x.exp ≤
              ((g * 2 ^ (b - r.exp).toNat * 2 ^ (r.exp - x.exp).toNat : Nat) : ℚ)
                * (2 : ℚ) ^ x.exp := by
            push_cast
            calc (x.mant.natAbs : ℚ) * (2 : ℚ) ^ x.exp ≤ (g : ℚ) * (2 : ℚ) ^ b := hb
              _ = (g : ℚ) * (2 : ℚ) ^ (b - r.exp).toNat * (2 : ℚ) ^ (r.exp - x.exp).toNat
                    * (2 : ℚ) ^ x.exp := by
                  rw [← hsplit, ← hsplit2]; ring
          exact_mod_cast le_of_mul_le_mul_right this (two_zpow_pos _)
        have hkM := hM _ hn
        calc (k : ℚ) * (2 : ℚ) ^ r.exp
            ≤ ((g * 2 ^ (b - r.exp).toNat : Nat) : ℚ) * (2 : ℚ) ^ r.exp :=
              mul_le_mul_of_nonneg_right (by exact_mod_cast hkM) (two_zpow_pos _).le
          _ = (g : ℚ) * (2 : ℚ) ^ b := by
              rw [← hsplit]; push_cast; ring
    refine ⟨r, ?_, key.1⟩
    rw [hr, if_pos]
    by_cases hr0 : r.mant = 0
    · simp only [hr0, Int.natAbs_zero, bitLength_zero, Nat.cast_zero, add_zero]
      exact key.2 hr0
    · have := exp_add_bitLength_le r hr0 prec g b key.1 hg
      omega


theorem toRat_mul (x y : Dyad) : toRat (mul x y) = toRat x * toRat y := by
  simp only [toRat, mul, Int.cast_mul, zpow_add₀ (show (2 : ℚ) ≠ 0 by norm_num)]
  ring

theorem natAbs_tmod (a b : Int) : (Int.tmod a b).natAbs = a.natAbs % b.natAbs := by
  cases a <;> cases b <;> simp [Int.tmod, Int.natAbs_neg] <;> rfl

/-- A value rescaled to a smaller exponent. -/
theorem toRat_rescale (x : Dyad) (e : Int) (h : e ≤ x.exp) :
    ((x.mant * 2 ^ (x.exp - e).toNat : Int) : ℚ) * (2 : ℚ) ^ e = toRat x := by
  unfold toRat
  rw [← two_zpow_split x.exp e h]
  push_cast
  ring

/-- The conversion to `int` of a value of magnitude at most `B` has magnitude
at most `B`. -/
theorem toInt_bounded (x : Dyad) (B : Nat) (hB : B ≤ 2147483647)
    (h : |toRat x| ≤ (B : ℚ)) : -(B : Int) ≤ toInt x ∧ toInt x ≤ (B : Int) := by
  have key : ((if 0 ≤ x.exp then x.mant * 2 ^ x.exp.toNat
      else Int.tdiv x.mant (2 ^ (-x.exp).toNat) : Int)).natAbs ≤ B := by
    rw [abs_toRat] at h
    split_ifs with he
    · have h1 : (2 : ℚ) ^ x.exp = ((2 ^ x.exp.toNat : Nat) : ℚ) := by
        rw [Nat.cast_pow, ← zpow_natCast, Int.toNat_of_nonneg he]; norm_num
      rw [h1] at h
      rw [Int.natAbs_mul, Int.natAbs_pow]
      exact_mod_cast h
    · have h1 : (2 : ℚ) ^ x.exp * ((2 ^ (-x.exp).toNat : Nat) : ℚ) = 1 := by
        rw [Nat.cast_pow, ← zpow_natCast, Int.toNat_of_nonneg (by omega), Nat.cast_ofNat,
          ← zpow_add₀ (by norm_num)]
        simp
      have h2 : x.mant.natAbs ≤ B * 2 ^ (-x.exp).toNat := by
        have : (x.mant.natAbs : ℚ) ≤ (B : ℚ) * ((2 ^ (-x.exp).toNat : Nat) : ℚ) := by
          have hp : (0 : ℚ) ≤ ((2 ^ (-x.exp).toNat : Nat) : ℚ) := by positivity
          calc (x.mant.natAbs : ℚ)
              = (x.mant.natAbs : ℚ) * (2 : ℚ) ^ x.exp * ((2 ^ (-x.exp).toNat : Nat) : ℚ) := by
                rw [mul_assoc, h1, mul_one]
            _ ≤ (B : ℚ) * ((2 ^ (-x.exp).toNat : Nat) : ℚ) :=
                mul_le_mul_of_nonneg_right h hp
        exact_mod_cast this
      rw [Int.natAbs_tdiv, Int.natAbs_pow]
      exact Nat.div_le_of_le_mul (by rw [Nat.mul_comm]; exact h2)
  unfold toInt
  dsimp only
  generalize (if 0 ≤ x.exp then x.mant * 2 ^ x.exp.toNat
      else Int.tdiv x.mant (2 ^ (-x.exp).toNat) : Int) = t at key ⊢
  split_ifs <;> omega

/-- Rounding returns a nearest value of the format: the result differs from
the exact value by at most half the quantum of the format at that value. -/
theorem roundNE_nearest (prec : Nat) (qmin emax : Int) (x r : Dyad)
    (h : roundNE prec qmin emax x = some r) :
    2 * |toRat r - toRat x| ≤
      (2 : ℚ) ^ (max (x.exp + (bitLength x.mant.natAbs : Int) - (prec : Int)) qmin) := by
  by_cases hx : x.mant = 0
  · have hr : r = ⟨0, 0⟩ := by
      have : roundNE prec qmin emax x = some ⟨0, 0⟩ := by simp [roundNE, hx]
      rw [this] at h; exact (Option.some.inj h).symm
    subst hr
    simp only [toRat, hx, Int.cast_zero, zero_mul, sub_self, abs_zero, mul_zero]
    positivity
  · obtain ⟨r', hr', hcase⟩ := roundNE_spec prec qmin emax x hx
    rw [hr'] at h
    split_ifs at h
    obtain rfl := Option.some.inj h
    rcases hcase with ⟨_, rfl⟩ | ⟨hlt, hq, k, hk, h1, h2, _⟩
    · simp only [sub_self, abs_zero, mul_zero]
      positivity
    · rw [← hq]
      have hsplit := two_zpow_split r'.exp x.exp hlt.le
      have hs : x.mant.sign = 1 ∨ x.mant.sign = -1 := by
        rcases lt_trichotomy x.mant 0 with hneg | hz | hpos
        · exact Or.inr (Int.sign_eq_neg_one_of_neg hneg)
        · exact absurd hz hx
        · exact Or.inl (Int.sign_eq_one_of_pos hpos)
      have hm : (x.mant : ℚ) = (x.mant.sign : ℚ) * (x.mant.natAbs : ℚ) := by
        calc (x.mant : ℚ) = ((x.mant.sign * (x.mant.natAbs : Int) : Int) : ℚ) := by
              rw [Int.sign_mul_natAbs]
          _ = (x.mant.sign : ℚ) * (x.mant.natAbs : ℚ) := by
              rw [Int.cast_mul, Int.cast_natCast]
      have e : toRat r' - toRat x =
          (x.mant.sign : ℚ) * (((k : ℚ) * (2 : ℚ) ^ (r'.exp - x.exp).toNat
            - (x.mant.natAbs : ℚ)) * (2 : ℚ) ^ x.exp) := by
        simp only [toRat]
        rw [hk, ← hsplit, hm]
        push_cast
        ring
      have hsabs : |(x.mant.sign : ℚ)| = 1 := by
        rcases hs with h | h <;> rw [h] <;> simp
      rw [e, abs_mul, hsabs, one_mul, abs_mul, abs_of_pos (two_zpow_pos x.exp), ← hsplit]
      have h1' : 2 * ((k : ℚ) * (2 : ℚ) ^ (r'.exp - x.exp).toNat)
          ≤ 2 * (x.mant.natAbs : ℚ) + (2 : ℚ) ^ (r'.exp - x.exp).toNat := by
        exact_mod_cast h1
      have h2' : 2 * (x.mant.natAbs : ℚ)
          ≤ 2 * ((k : ℚ) * (2 : ℚ) ^ (r'.exp - x.exp).toNat)
            + (2 : ℚ) ^ (r'.exp - x.exp).toNat := by
        exact_mod_cast h2
      have habs : 2 * |(k : ℚ) * (2 : ℚ) ^ (r'.exp - x.exp).toNat - (x.mant.natAbs : ℚ)|
          ≤ (2 : ℚ) ^ (r'.exp - x.exp).toNat := by
        have h3 : |2 * ((k : ℚ) * (2 : ℚ) ^ (r'.exp - x.exp).toNat - (x.mant.natAbs : ℚ))|
            ≤ (2 : ℚ) ^ (r'.exp - x.exp).toNat := by
          rw [abs_le]
          constructor <;> linarith
        rwa [abs_mul, abs_two] at h3
      calc 2 * (|(k : ℚ) * (2 : ℚ) ^ (r'.exp - x.exp).toNat - (x.mant.natAbs : ℚ)|
              * (2 : ℚ) ^ x.exp)
          = (2 * |(k : ℚ) * (2 : ℚ) ^ (r'.exp - x.exp).toNat - (x.mant.natAbs : ℚ)|)
              * (2 : ℚ) ^ x.exp := by ring
        _ ≤ (2 : ℚ) ^ (r'.exp - x.exp).toNat * (2 : ℚ) ^ x.exp :=
            mul_le_mul_of_nonneg_right habs (two_zpow_pos _).le

end Dyad

/-! ## `fmod` and the range of `cM::rad2i` -/

/-- The remainder `fmod x y` is finite for a nonzero divisor, smaller than
the divisor in magnitude, and differs from `x` by an integer multiple of `y`:
the quotient truncated toward zero. -/
theorem fmod_spec (x y : Dyad) (hy : y.mant ≠ 0) :
    ∃ d, fmod x y = some d ∧ |Dyad.toRat d| < |Dyad.toRat y| ∧
      ∃ n : Int, Dyad.toRat d = Dyad.toRat x - n * Dyad.toRat y := by
  refine ⟨⟨Int.tmod (x.mant * 2 ^ (x.exp - min x.exp y.exp).toNat)
    (y.mant * 2 ^ (y.exp - min x.exp y.exp).toNat), min x.exp y.exp⟩,
    by simp only [fmod, hy, if_false], ?_, ?_⟩
  · rw [Dyad.abs_toRat, Dyad.abs_toRat]
    dsimp only
    have hY : (y.mant * 2 ^ (y.exp - min x.exp y.exp).toNat).natAbs ≠ 0 := by
      simp [hy]
    have hlt := Nat.mod_lt (x.mant * 2 ^ (x.exp - min x.exp y.exp).toNat).natAbs
      (Nat.pos_of_ne_zero hY)
    rw [← Dyad.natAbs_tmod] at hlt
    have h2 := Dyad.toRat_rescale y (min x.exp y.exp) (min_le_right _ _)
    have h3 : |Dyad.toRat y| = ((y.mant * 2 ^ (y.exp - min x.exp y.exp).toNat).natAbs : ℚ)
        * (2 : ℚ) ^ (min x.exp y.exp) := by
      rw [← h2, abs_mul, abs_of_pos (Dyad.two_zpow_pos _), Nat.cast_natAbs, Int.cast_abs]
    rw [Dyad.abs_toRat] at h3
    rw [h3]
    apply mul_lt_mul_of_pos_right _ (Dyad.two_zpow_pos _)
    exact_mod_cast hlt
  · refine ⟨Int.tdiv (x.mant * 2 ^ (x.exp - min x.exp y.exp).toNat)
      (y.mant * 2 ^ (y.exp - min x.exp y.exp).toNat), ?_⟩
    rw [← Dyad.toRat_rescale x (min x.exp y.exp) (min_le_left _ _),
      ← Dyad.toRat_rescale y (min x.exp y.exp) (min_le_right _ _)]
    simp only [Dyad.toRat]
    rw [Int.tmod_def]
    push_cast
    ring

namespace cM

/-- For every finite `float` argument `cM::rad2i` returns an `int` between
`-65536` and `65536`: the remainder is below one turn, so is its conversion to
`float`, and the single-precision product is at most `65536.0`. -/
theorem rad2i_bounded (radians : Dyad) :
    ∃ n, rad2i radians = some n ∧ -65536 ≤ n ∧ n ≤ 65536 := by
  obtain ⟨d, hd, hdlt, _⟩ := fmod_spec radians twoPi (by decide)
  have htwo : |Dyad.toRat twoPi| = ((13176795 : Nat) : ℚ) * (2 : ℚ) ^ (-21 : Int) := by
    rw [Dyad.abs_toRat]; rfl
  obtain ⟨rem, hrem, hremle⟩ := Dyad.roundNE_bounded 24 (-149) 128 d 13176795 (-21)
    (by rw [← htwo]; exact hdlt.le) (by norm_num) (by norm_num) (by norm_num)
  have hprod : |Dyad.toRat (Dyad.mul rem multiplier)| ≤ ((1 : Nat) : ℚ) * (2 : ℚ) ^ (16 : Int) := by
    rw [Dyad.toRat_mul, abs_mul]
    have hm : |Dyad.toRat multiplier| = ((10680707 : Nat) : ℚ) * (2 : ℚ) ^ (-10 : Int) := by
      rw [Dyad.abs_toRat]; rfl
    rw [hm]
    calc |Dyad.toRat rem| * (((10680707 : Nat) : ℚ) * (2 : ℚ) ^ (-10 : Int))
        ≤ (((13176795 : Nat) : ℚ) * (2 : ℚ) ^ (-21 : Int))
            * (((10680707 : Nat) : ℚ) * (2 : ℚ) ^ (-10 : Int)) :=
          mul_le_mul_of_nonneg_right hremle (by positivity)
      _ ≤ ((1 : Nat) : ℚ) * (2 : ℚ) ^ (16 : Int) := by norm_num
  obtain ⟨pr, hpr, hprle⟩ := Dyad.roundNE_bounded 24 (-149) 128 _ 1 16
    hprod (by norm_num) (by norm_num) (by norm_num)
  have hint := Dyad.toInt_bounded pr 65536 (by norm_num) (by
    have : ((1 : Nat) : ℚ) * (2 : ℚ) ^ (16 : Int) = ((65536 : Nat) : ℚ) := by norm_num
    rw [← this]; exact hprle)
  refine ⟨Dyad.toInt pr, ?_, by simpa using hint.1, by simpa using hint.2⟩
  simp [rad2i, hd, Dyad.roundF32, hrem, hpr]

/-- For every finite `float` argument `cM::rad2s` returns a value, and this
value is the single wrap of what `cM::rad2i` returns. -/
theorem rad2s_total (radians : Dyad) :
    ∃ n, rad2i radians = some n ∧ -65536 ≤ n ∧ n ≤ 65536 ∧
      rad2s radians =
        some (if n < -32768 then n + 65536 else if n > 32767 then n - 65536 else n) := by
  obtain ⟨n, hn, h1, h2⟩ := rad2i_bounded radians
  refine ⟨n, hn, h1, h2, ?_⟩
  simp only [rad2s, hn, Option.map_some', Option.some.injEq]
  unfold rad2sOfInt castS16 wrapStep wrapS32
  split_ifs <;> omega

end cM

/-! ## The literals and the test angles -/

theorem two_mul_abs_le (a b : ℚ) (h1 : -b ≤ 2 * a) (h2 : 2 * a ≤ b) : 2 * |a| ≤ b := by
  have h3 : |2 * a| ≤ b := abs_le.mpr ⟨h1, h2⟩
  rwa [abs_mul, abs_two] at h3

namespace cM

/-- The constant `multiplier` is the `float` nearest to the decimal
`10430.378`: 24 digits, within half a unit of the last place. -/
theorem multiplier_literal :
    Dyad.bitLength multiplier.mant.natAbs = 24 ∧
    2 * |Dyad.toRat multiplier - 10430378 / 1000| ≤ (2 : ℚ) ^ multiplier.exp := by
  refine ⟨by decide, ?_⟩
  simp only [Dyad.toRat, multiplier]
  apply two_mul_abs_le <;> norm_num

/-- The constant `twoPi` is the `double` nearest to the decimal
`6.2831854820251465`, and it is a `float` as well. -/
theorem twoPi_literal :
    Dyad.roundF32 twoPi = some twoPi ∧ Dyad.roundF64 twoPi = some twoPi ∧
    2 * |Dyad.toRat twoPi - 62831854820251465 / 10000000000000000| ≤ (2 : ℚ) ^ (-50 : Int) := by
  refine ⟨by decide, by decide, ?_⟩
  simp only [Dyad.toRat, twoPi]
  apply two_mul_abs_le <;> norm_num

/-- The test angles are the `float` values nearest to pi, `-pi/2` and
`3*pi/2`: within half a unit of the last place of their binade. -/
theorem test_angles_nearest :
    2 * |((Dyad.toRat piF : ℚ) : ℝ) - Real.pi| < (2 : ℝ) ^ (-22 : Int) ∧
    2 * |((Dyad.toRat negHalfPiF : ℚ) : ℝ) - -(Real.pi / 2)| < (2 : ℝ) ^ (-23 : Int) ∧
    2 * |((Dyad.toRat threeHalfPiF : ℚ) : ℝ) - 3 * Real.pi / 2| < (2 : ℝ) ^ (-21 : Int) := by
  have h1 := Real.pi_gt_d20
  have h2 := Real.pi_lt_d20
  simp only [Dyad.toRat, piF, negHalfPiF, threeHalfPiF]
  refine ⟨?_, ?_, ?_⟩
  all_goals
    rw [← abs_two, ← abs_mul, abs_lt]
    norm_num
    constructor <;> linarith

theorem test_angles_are_floats :
    Dyad.roundF32 piF = some piF ∧ Dyad.roundF32 negHalfPiF = some negHalfPiF ∧
    Dyad.roundF32 threeHalfPiF = some threeHalfPiF ∧ Dyad.roundF32 zeroF = some zeroF := by
  decide

end cM

/-! ## `cM::rad2s`: the integer part -/

namespace cM

theorem wrapS32_of_isS32 (x : Int) (h : isS32 x) : wrapS32 x = x := by
  unfold isS32 at h
  unfold wrapS32
  omega

theorem castS16_of_range (x : Int) (h1 : -32768 ≤ x) (h2 : x ≤ 32767) : castS16 x = x := by
  unfold castS16
  omega

theorem toInt_isS32 (x : Dyad) : isS32 (Dyad.toInt x) := by
  unfold isS32 Dyad.toInt
  dsimp only
  split_ifs <;> omega

/-- Every value `cM::rad2i` returns is an `int`. -/
theorem rad2i_isS32 (radians : Dyad) (n : Int) (h : rad2i radians = some n) : isS32 n := by
  unfold rad2i at h
  simp only [Option.bind_eq_bind, Option.pure_def, Option.bind_eq_some] at h
  obtain ⟨_, _, _, _, p, _, hp⟩ := h
  cases hp
  exact toInt_isS32 p

/-- C1: for every value `n` of `converted` (every `int`, and indeed every
integer), the value `cM::rad2s` returns lies in `[-32768, 32767]` and is
congruent to `n` modulo 65536. -/
theorem rad2s_range_congr (n : Int) :
    -32768 ≤ rad2sOfInt n ∧ rad2sOfInt n ≤ 32767 ∧ rad2sOfInt n ≡ n [ZMOD 65536] := by
  unfold Int.ModEq rad2sOfInt castS16 wrapStep wrapS32
  split_ifs <;> omega

/-- C2: for `-65536 ≤ n ≤ 65536` the single wrap step already lies in
`[-32768, 32767]`, the `(s16)` cast leaves it unchanged, and the result is
`n + 65536` below `-32768`, `n - 65536` above `32767`, else `n`. -/
theorem rad2s_single_wrap (n : Int) (h1 : -65536 ≤ n) (h2 : n ≤ 65536) :
    (-32768 ≤ wrapStep n ∧ wrapStep n ≤ 32767) ∧
    castS16 (wrapStep n) = wrapStep n ∧
    rad2sOfInt n = (if n < -32768 then n + 65536 else if n > 32767 then n - 65536 else n) := by
  unfold rad2sOfInt castS16 wrapStep wrapS32
  split_ifs <;> omega

theorem rad2s_single_wrap_witness :
    (-32768 ≤ wrapStep 32768 ∧ wrapStep 32768 ≤ 32767) ∧
    castS16 (wrapStep 32768) = wrapStep 32768 ∧
    rad2sOfInt 32768 =
      (if (32768 : Int) < -32768 then 32768 + 65536
       else if (32768 : Int) > 32767 then 32768 - 65536 else 32768) :=
  rad2s_single_wrap 32768 (by decide) (by decide)

/-- C10: for every `int` value of `converted` the wrap step does not overflow:
the addition happens only below `-0x8000`, the subtraction only above
`0x7FFF`, the exact result stays an `int`, and the wrapped `int` arithmetic
equals the arithmetic over unbounded integers. -/
theorem wrapStep_no_overflow (n : Int) (h : isS32 n) :
    (n < -0x8000 → isS32 (n + 0x10000) ∧ wrapS32 (n + 0x10000) = n + 0x10000) ∧
    (n > 0x7FFF → isS32 (n - 0x10000) ∧ wrapS32 (n - 0x10000) = n - 0x10000) ∧
    wrapStep n = (if n < -0x8000 then n + 0x10000
                  else if n > 0x7FFF then n - 0x10000 else n) ∧
    isS32 (wrapStep n) := by
  unfold isS32 at *
  unfold wrapStep wrapS32
  refine ⟨fun _ => by omega, fun _ => by omega, ?_, ?_⟩ <;> split_ifs <;> omega

theorem wrapStep_no_overflow_witness :
    isS32 (-2147483648) ∧
    wrapStep (-2147483648) = -2147483648 + 0x10000 ∧ isS32 (wrapStep (-2147483648)) :=
  ⟨by decide, (wrapStep_no_overflow (-2147483648) (by decide)).2.2.1.trans (by decide),
    (wrapStep_no_overflow (-2147483648) (by decide)).2.2.2⟩

/-! ## `cM::rad2s`: the test angles -/

/-- C3: `cM::rad2s` at pi returns `-32768`: the remainder is pi itself, the
single-precision product is `32768.0`, truncation gives `32768`, and the wrap
subtracts `65536`. -/
theorem rad2s_pi :
    fmod piF twoPi = some piF ∧
    (Dyad.roundF32 (Dyad.mul piF multiplier)).map Dyad.toRat = some 32768 ∧
    rad2i piF = some 32768 ∧ rad2s piF = some (-32768) := by
  refine ⟨by decide, ?_, by decide, by decide⟩
  have h : Dyad.roundF32 (Dyad.mul piF multiplier) = some ⟨16777216, -9⟩ := by decide
  rw [h]
  norm_num [Dyad.toRat]

/-- C4: `cM::rad2s` at `0.0` returns `0`: the remainder is `0`, `rad2i`
returns `0`, and the wrap step leaves `0` unchanged. -/
theorem rad2s_zero :
    (fmod zeroF twoPi).map Dyad.toRat = some 0 ∧ rad2i zeroF = some 0 ∧
    wrapStep 0 = 0 ∧ rad2s zeroF = some 0 := by
  refine ⟨?_, by decide, by decide, by decide⟩
  have h : fmod zeroF twoPi = some ⟨0, -21⟩ := by decide
  rw [h]
  simp [Dyad.toRat]

/-- C5: `cM::rad2s` at the period constant `6.2831854820251465` returns `0`. -/
theorem rad2s_twoPi :
    (fmod twoPi twoPi).map Dyad.toRat = some 0 ∧ rad2s twoPi = some 0 := by
  refine ⟨?_, by decide⟩
  have h : fmod twoPi twoPi = some ⟨0, -21⟩ := by decide
  rw [h]
  simp [Dyad.toRat]

/-- C6: `cM::rad2s` returns the same value, `-16384`, at `-pi/2` and at
`3*pi/2`: the first from the negative product `-16384`, the second from the
positive product `49152` wrapped by `-65536`. -/
theorem rad2s_negHalfPi_eq_threeHalfPi :
    rad2s negHalfPiF = rad2s threeHalfPiF ∧ rad2s negHalfPiF = some (-16384) ∧
    rad2i negHalfPiF = some (-16384) ∧ rad2i threeHalfPiF = some 49152 := by
  decide

end cM

/-! ## `cM::rad2s` built with `NON_MATCHING` -/

namespace cM

/-- Under `NON_MATCHING` the product at pi is the `double` just below `32768`
and `rad2s` returns `32767`. -/
theorem rad2s_NON_MATCHING_pi :
    rad2i_NON_MATCHING piF = some 32767 ∧ rad2s_NON_MATCHING piF = some 32767 := by
  decide

/-- Under `NON_MATCHING` the results at `-pi/2` and `3*pi/2` differ by two
units. -/
theorem rad2s_NON_MATCHING_halfPi :
    rad2s_NON_MATCHING negHalfPiF = some (-16383) ∧
    rad2s_NON_MATCHING threeHalfPiF = some (-16385) := by
  decide

end cM

/-! ## The intrusive tree: field assignments -/

namespace Store

@[simp] theorem setParent_mpParent (s : Store) (a b : Nat) (v : Option Nat) :
    ((s.setParent a v) b).mpParent = if b = a then v else (s b).mpParent := by
  unfold setParent; split_ifs <;> rfl

@[simp] theorem setParent_mpChild (s : Store) (a b : Nat) (v : Option Nat) :
    ((s.setParent a v) b).mpChild = (s b).mpChild := by
  unfold setParent; split_ifs <;> simp_all

@[simp] theorem setParent_mpPrev (s : Store) (a b : Nat) (v : Option Nat) :
    ((s.setParent a v) b).mpPrev = (s b).mpPrev := by
  unfold setParent; split_ifs <;> simp_all

@[simp] theorem setParent_mpNext (s : Store) (a b : Nat) (v : Option Nat) :
    ((s.setParent a v) b).mpNext = (s b).mpNext := by
  unfold setParent; split_ifs <;> simp_all

@[simp] theorem setChild_mpParent (s : Store) (a b : Nat) (v : Option Nat) :
    ((s.setChild a v) b).mpParent = (s b).mpParent := by
  unfold setChild; split_ifs <;> simp_all

@[simp] theorem setChild_mpChild (s : Store) (a b : Nat) (v : Option Nat) :
    ((s.setChild a v) b).mpChild = if b = a then v else (s b).mpChild := by
  unfold setChild; split_ifs <;> rfl

@[simp] theorem setChild_mpPrev (s : Store) (a b : Nat) (v : Option Nat) :
    ((s.setChild a v) b).mpPrev = (s b).mpPrev := by
  unfold setChild; split_ifs <;> simp_all

@[simp] theorem setChild_mpNext (s : Store) (a b : Nat) (v : Option Nat) :
    ((s.setChild a v) b).mpNext = (s b).mpNext := by
  unfold setChild; split_ifs <;> simp_all

@[simp] theorem setPrev_mpParent (s : Store) (a b : Nat) (v : Option Nat) :
    ((s.setPrev a v) b).mpParent = (s b).mpParent := by
  unfold setPrev; split_ifs <;> simp_all

@[simp] theorem setPrev_mpChild (s : Store) (a b : Nat) (v : Option Nat) :
    ((s.setPrev a v) b).mpChild = (s b).mpChild := by
  unfold setPrev; split_ifs <;> simp_all

@[simp] theorem setPrev_mpPrev (s : Store) (a b : Nat) (v : Option Nat) :
    ((s.setPrev a v) b).mpPrev = if b = a then v else (s b).mpPrev := by
  unfold setPrev; split_ifs <;> rfl

@[simp] theorem setPrev_mpNext (s : Store) (a b : Nat) (v : Option Nat) :
    ((s.setPrev a v) b).mpNext = (s b).mpNext := by
  unfold setPrev; split_ifs <;> simp_all

@[simp] theorem setNext_mpParent (s : Store) (a b : Nat) (v : Option Nat) :
    ((s.setNext a v) b).mpParent = (s b).mpParent := by
  unfold setNext; split_ifs <;> simp_all

@[simp] theorem setNext_mpChild (s : Store) (a b : Nat) (v : Option Nat) :
    ((s.setNext a v) b).mpChild = (s b).mpChild := by
  unfold setNext; split_ifs <;> simp_all

@[simp] theorem setNext_mpPrev (s : Store) (a b : Nat) (v : Option Nat) :
    ((s.setNext a v) b).mpPrev = (s b).mpPrev := by
  unfold setNext; split_ifs <;> simp_all

@[simp] theorem setNext_mpNext (s : Store) (a b : Nat) (v : Option Nat) :
    ((s.setNext a v) b).mpNext = if b = a then v else (s b).mpNext := by
  unfold setNext; split_ifs <;> rfl

end Store

/-! ## The intrusive tree: insertion -/

namespace cTreeMg_c

/-- A detached node that is not the root is accepted under any parent. -/
theorem addTreeNode_succeeds (mg : cTreeMg_c) (s : Store) (n p : Nat)
    (hd : (s n).isDetached = true) (hr : mg.mpRootNode ≠ some n) :
    (addTreeNode mg s (some n) (some p)).1 = true := by
  simp [addTreeNode, hd, hr]

/-- C7: after `addTreeNode(node, parent)` returns true, `node.mpParent` is
`parent`, `parent.mpChild` is `node`, `node.mpNext` is the previous first
child of `parent`, and that previous first child has `mpPrev` equal to
`node`. -/
theorem addTreeNode_links (mg : cTreeMg_c) (s : Store) (n p : Nat)
    (h : (addTreeNode mg s (some n) (some p)).1 = true) :
    ((addTreeNode mg s (some n) (some p)).2.2 n).mpParent = some p ∧
    ((addTreeNode mg s (some n) (some p)).2.2 p).mpChild = some n ∧
    ((addTreeNode mg s (some n) (some p)).2.2 n).mpNext = (s p).mpChild ∧
    ∀ c, (s p).mpChild = some c →
      ((addTreeNode mg s (some n) (some p)).2.2 c).mpPrev = some n := by
  unfold addTreeNode at h ⊢
  dsimp only at h ⊢
  split_ifs at h ⊢
  cases hold : (s p).mpChild with
  | none => simp
  | some c => simp

theorem addTreeNode_links_witness :
    (addTreeNode exampleStart.2.1 exampleStart.2.2 (some 2) (some 0)).1 = true ∧
    (exampleStart.2.2 0).mpChild = some 1 ∧
    ((addTreeNode exampleStart.2.1 exampleStart.2.2 (some 2) (some 0)).2.2 2).mpParent
      = some 0 ∧
    ((addTreeNode exampleStart.2.1 exampleStart.2.2 (some 2) (some 0)).2.2 0).mpChild
      = some 2 ∧
    ((addTreeNode exampleStart.2.1 exampleStart.2.2 (some 2) (some 0)).2.2 2).mpNext
      = some 1 ∧
    ((addTreeNode exampleStart.2.1 exampleStart.2.2 (some 2) (some 0)).2.2 1).mpPrev
      = some 2 :=
  have h := addTreeNode_links exampleStart.2.1 exampleStart.2.2 2 0 (by decide)
  ⟨by decide, by decide, h.1, h.2.1, h.2.2.1.trans (by decide), h.2.2.2 1 (by decide)⟩

end cTreeMg_c

/-! ## The intrusive tree: traversal -/

namespace Forest

theorem height_le_size (f : Forest) : height f ≤ size f := by
  induction f with
  | nil => simp [height, size]
  | node a kids sibs ihk ihs => simp only [height, size]; omega

theorem first_eq_entry_none (f : Forest) : first f = entry f none := by
  cases f <;> rfl

end Forest

namespace cTreeNd_c

open Forest

/-- The upward walk from a node whose next sibling is the head of `sibs` and
whose parent walks up to `k`. -/
theorem ancestorNext_node (s : Store) (a : Nat) (p k : Option Nat) (sibs : Forest) (d : Nat)
    (hn : (s a).mpNext = first sibs) (hp : (s a).mpParent = p)
    (hup : ∀ f, d ≤ f → ancestorNext s f p = some k) :
    ∀ f, d + 1 ≤ f → ancestorNext s f (some a) = some (entry sibs k) := by
  intro f hf
  obtain ⟨g, rfl⟩ : ∃ g, f = g + 1 := ⟨f - 1, by omega⟩
  cases sibs with
  | nil =>
    have hn0 : (s a).mpNext = none := hn
    simp only [ancestorNext, hn0, hp, entry]
    exact hup g (by omega)
  | node b kb sb =>
    have hn1 : (s a).mpNext = some b := hn
    simp only [ancestorNext, hn1, entry]

theorem getTreeNextNotChild_node (s : Store) (a : Nat) (p k : Option Nat) (sibs : Forest)
    (d N : Nat) (hn : (s a).mpNext = first sibs) (hp : (s a).mpParent = p)
    (hup : ∀ f, d ≤ f → ancestorNext s f p = some k) (hN : d ≤ N) :
    getTreeNextNotChild s N a = some (entry sibs k) := by
  cases sibs with
  | nil =>
    have hn0 : (s a).mpNext = none := hn
    simp only [getTreeNextNotChild, hn0, hp, entry]
    exact hup N hN
  | node b kb sb =>
    have hn1 : (s a).mpNext = some b := hn
    simp only [getTreeNextNotChild, hn1, entry]

theorem getTreeNext_node (s : Store) (a : Nat) (p k : Option Nat) (kids sibs : Forest)
    (d N : Nat) (hc : (s a).mpChild = first kids)
    (hn : (s a).mpNext = first sibs) (hp : (s a).mpParent = p)
    (hup : ∀ f, d ≤ f → ancestorNext s f p = some k) (hN : d ≤ N) :
    getTreeNext s N a = some (entry kids (entry sibs k)) := by
  cases kids with
  | nil =>
    have hc0 : (s a).mpChild = none := hc
    simp only [getTreeNext, hc0, entry]
    exact getTreeNextNotChild_node s a p k sibs d N hn hp hup hN
  | node b kb sb =>
    have hc1 : (s a).mpChild = some b := hc
    simp only [getTreeNext, hc1, entry]

end cTreeNd_c

open Forest cTreeNd_c in
/-- Iterating `getTreeNext` through a linked forest visits its pre-order and
continues with what follows the forest. -/
theorem treeWalk_forest (s : Store) (N : Nat) (f : Forest) :
    ∀ (p q k : Option Nat) (d n : Nat), Linked s p q f →
      (∀ g, d ≤ g → ancestorNext s g p = some k) → d + height f ≤ N →
      treeWalk s N (size f + n) (entry f k) =
        (treeWalk s N n k).map (fun l => preorder f ++ l) := by
  induction f with
  | nil =>
    intro p q k d n _ _ _
    simp [size, entry, preorder]
  | node a kids sibs ihk ihs =>
    intro p q k d n hl hup hN
    obtain ⟨hp, _, hc, hn, hlk, hls⟩ := hl
    simp only [height] at hN
    have hstep : size (node a kids sibs) + n = (size kids + (size sibs + n)) + 1 := by
      simp only [size]; omega
    have hnext := getTreeNext_node s a p k kids sibs d N hc hn hp hup (by omega)
    have hupk := ancestorNext_node s a p k sibs d hn hp hup
    rw [hstep]
    show treeWalk s N ((size kids + (size sibs + n)) + 1) (some a) = _
    rw [treeWalk, hnext]
    dsimp only
    rw [ihk (some a) none (entry sibs k) (d + 1) (size sibs + n) hlk hupk (by omega)]
    rw [ihs p (some a) k d n hls hup (by omega)]
    simp [Option.map_map, preorder, Function.comp_def]

open cTreeNd_c in
/-- An iteration that ends has made a last call that returned null. -/
theorem treeWalk_last (s : Store) (N : Nat) :
    ∀ (steps a : Nat) (l : List Nat), treeWalk s N steps (some a) = some l →
      ∃ z, l.getLast? = some z ∧ getTreeNext s N z = some none := by
  intro steps
  induction steps with
  | zero => intro a l h; simp [treeWalk] at h
  | succ m ih =>
    intro a l h
    simp only [treeWalk] at h
    cases hnx : getTreeNext s N a with
    | none => simp [hnx] at h
    | some nx =>
      simp only [hnx, Option.map_eq_some'] at h
      obtain ⟨l', hl', rfl⟩ := h
      cases nx with
      | none =>
        have : l' = [] := by
          cases m <;> simpa [treeWalk] using hl'.symm
        subst this
        exact ⟨a, by simp, hnx⟩
      | some b =>
        obtain ⟨z, hz, hzn⟩ := ih b l' hl'
        refine ⟨z, ?_, hzn⟩
        cases l' with
        | nil => simp at hz
        | cons x xs => simpa [List.getLast?_cons_cons] using hz

open Forest cTreeNd_c in
/-- C8: in a well-formed tree, iterating `getTreeNext` from the root visits
the nodes in pre-order, every node exactly once, and ends with a call that
returns null; bounds of the size of the tree suffice for the iteration. -/
theorem getTreeNext_visits_preorder (mg : cTreeMg_c) (s : Store) (t : Forest)
    (N steps : Nat) (hwf : WellFormed mg s t) (hN : size t ≤ N) (hsteps : size t ≤ steps) :
    treeWalk s N steps mg.mpRootNode = some (preorder t) ∧
    (∀ a, a ∈ preorder t → (preorder t).count a = 1) ∧
    ∃ z, (preorder t).getLast? = some z ∧ getTreeNext s N z = some none := by
  obtain ⟨⟨r, kids, rfl⟩, hroot, hl, hnd⟩ := hwf
  have hh := height_le_size (node r kids nil)
  have key := treeWalk_forest s N (node r kids nil) none none none 0 (steps - size (node r kids nil))
    hl (fun g _ => by cases g <;> rfl) (by omega)
  have hs : size (node r kids nil) + (steps - size (node r kids nil)) = steps := by omega
  rw [hs] at key
  have hnil : treeWalk s N (steps - size (node r kids nil)) none = some [] := by
    cases (steps - size (node r kids nil)) <;> rfl
  rw [hnil] at key
  simp only [entry, Option.map_some', List.append_nil] at key
  have htr : treeWalk s N steps mg.mpRootNode = some (preorder (node r kids nil)) := by
    rw [hroot]; exact key
  refine ⟨htr, fun a ha => List.count_eq_one_of_mem hnd ha, ?_⟩
  exact treeWalk_last s N steps r _ key

theorem exampleTree_wellFormed :
    Forest.WellFormed exampleTree.2.1 exampleTree.2.2 exampleForest :=
  ⟨⟨0, _, rfl⟩, by decide, by decide, by decide⟩

theorem getTreeNext_visits_preorder_witness :
    treeWalk exampleTree.2.2 5 5 exampleTree.2.1.mpRootNode = some [0, 2, 3, 4, 1] ∧
    cTreeNd_c.getTreeNext exampleTree.2.2 5 1 = some none :=
  have h := getTreeNext_visits_preorder exampleTree.2.1 exampleTree.2.2 exampleForest 5 5
    exampleTree_wellFormed (by decide) (by decide)
  ⟨h.1.trans (by decide), by decide⟩

/-! ## The intrusive tree: skipping a subtree -/

namespace Forest

/-- Every node of a forest is found by `locate`. -/
theorem locate_of_mem (f : Forest) :
    ∀ (k : Option Nat) (a : Nat), a ∈ preorder f → ∃ r, locate f k a = some r := by
  induction f with
  | nil => intro k a h; simp [preorder] at h
  | node b kids sibs ihk ihs =>
    intro k a h
    simp only [locate]
    by_cases hb : b = a
    · simp [hb]
    · simp only [hb, if_false]
      cases hk : locate kids (entry sibs k) a with
      | some r => exact ⟨r, rfl⟩
      | none =>
        simp only [preorder, List.mem_cons, List.mem_append] at h
        rcases h with h | h | h
        · exact absurd h.symm hb
        · obtain ⟨r, hr⟩ := ihk (entry sibs k) a h
          rw [hr] at hk; cases hk
        · exact ihs k a h

/-- The entry of a sibling list is its continuation or one of its nodes. -/
theorem entry_cases (f : Forest) (k : Option Nat) :
    entry f k = k ∨ ∃ y, entry f k = some y ∧ y ∈ preorder f := by
  cases f with
  | nil => exact Or.inl rfl
  | node b kb sb => exact Or.inr ⟨b, rfl, by simp [preorder]⟩

/-- What `locate` returns after the subtree of `a` is neither `a` nor one of
its descendants, when the nodes are distinct and the continuation lies
outside the forest. -/
theorem locate_not_descendant (f : Forest) :
    ∀ (k : Option Nat) (a : Nat) (kids : Forest) (nx : Option Nat),
      (preorder f).Nodup → (∀ y, k = some y → y ∉ preorder f) →
      locate f k a = some (kids, nx) →
      ∀ y, nx = some y → y ≠ a ∧ y ∉ preorder kids := by
  induction f with
  | nil => intro k a kids nx _ _ h; simp [locate] at h
  | node b kb sb ihk ihs =>
    intro k a kids nx hnd hk h y hy
    simp only [preorder, List.nodup_cons, List.mem_append, List.nodup_append,
      not_or] at hnd
    obtain ⟨⟨hbk, hbs⟩, hndk, hnds, hdisj⟩ := hnd
    have hk' : ∀ z, k = some z → z ≠ b ∧ z ∉ preorder kb ∧ z ∉ preorder sb := by
      intro z hz
      have := hk z hz
      simpa [preorder, not_or] using this
    -- the continuation of the children lies outside the children and is not `b`
    have hent : ∀ z, entry sb k = some z → z ≠ b ∧ z ∉ preorder kb := by
      intro z hz
      rcases entry_cases sb k with he | ⟨w, hw, hwm⟩
      · rw [he] at hz
        exact ⟨(hk' z hz).1, (hk' z hz).2.1⟩
      · rw [hw] at hz; cases hz
        exact ⟨fun e => hbs (e ▸ hwm), fun hm => hdisj hm hwm⟩
    simp only [locate] at h
    by_cases hb : b = a
    · simp only [hb, if_true, Option.some.injEq, Prod.mk.injEq] at h
      obtain ⟨rfl, rfl⟩ := h
      have := hent y hy
      exact ⟨hb ▸ this.1, this.2⟩
    · simp only [hb, if_false] at h
      cases hl : locate kb (entry sb k) a with
      | some r =>
        rw [hl] at h
        simp only [Option.some.injEq] at h
        subst h
        exact ihk (entry sb k) a kids nx hndk (fun z hz => (hent z hz).2) hl y hy
      | none =>
        rw [hl] at h
        exact ihs k a kids nx hnds (fun z hz => (hk' z hz).2.2) h y hy

end Forest

open Forest cTreeNd_c in
/-- On a linked forest `getTreeNextNotChild` returns what `locate` gives. -/
theorem getTreeNextNotChild_locate (s : Store) (N : Nat) (f : Forest) :
    ∀ (p q k : Option Nat) (d a : Nat) (kids : Forest) (nx : Option Nat), Linked s p q f →
      (∀ g, d ≤ g → ancestorNext s g p = some k) → d + height f ≤ N →
      locate f k a = some (kids, nx) →
      getTreeNextNotChild s N a = some nx ∧ (s a).mpChild = first kids := by
  induction f with
  | nil => intro p q k d a kids nx _ _ _ h; simp [locate] at h
  | node b kb sb ihk ihs =>
    intro p q k d a kids nx hl hup hN h
    obtain ⟨hp, _, hc, hn, hlk, hls⟩ := hl
    simp only [height] at hN
    simp only [locate] at h
    by_cases hb : b = a
    · simp only [hb, if_true, Option.some.injEq, Prod.mk.injEq] at h
      obtain ⟨rfl, rfl⟩ := h
      subst hb
      exact ⟨getTreeNextNotChild_node s b p k sb d N hn hp hup (by omega), hc⟩
    · simp only [hb, if_false] at h
      cases hloc : locate kb (entry sb k) a with
      | some r =>
        rw [hloc] at h
        simp only [Option.some.injEq] at h
        subst h
        exact ihk (some b) none (entry sb k) (d + 1) a kids nx hlk
          (ancestorNext_node s b p k sb d hn hp hup) (by omega) hloc
      | none =>
        rw [hloc] at h
        exact ihs p (some b) k d a kids nx hls hup (by omega) h

open Forest cTreeNd_c in
/-- C9: for every node `a` of a well-formed tree (with children `kids`),
`getTreeNextNotChild` returns the next sibling of `a` if present, else the
next sibling of the nearest ancestor that has one, else null, and what it
returns is neither `a` nor a descendant of `a`. -/
theorem getTreeNextNotChild_skips_descendants (mg : cTreeMg_c) (s : Store) (t : Forest)
    (N a : Nat) (hwf : WellFormed mg s t) (hN : size t ≤ N) (ha : a ∈ preorder t) :
    ∃ kids nx, locate t none a = some (kids, nx) ∧ (s a).mpChild = first kids ∧
      getTreeNextNotChild s N a = some nx ∧
      ∀ y, nx = some y → y ≠ a ∧ y ∉ preorder kids := by
  obtain ⟨_, _, hl, hnd⟩ := hwf
  obtain ⟨⟨kids, nx⟩, hloc⟩ := locate_of_mem t none a ha
  have hh := height_le_size t
  have h1 := getTreeNextNotChild_locate s N t none none none 0 a kids nx hl
    (fun g _ => by cases g <;> rfl) (by omega) hloc
  exact ⟨kids, nx, hloc, h1.2, h1.1,
    locate_not_descendant t none a kids nx hnd (fun y hy => by cases hy) hloc⟩

theorem getTreeNextNotChild_skips_descendants_witness :
    3 ∈ exampleForest.preorder ∧
    cTreeNd_c.getTreeNextNotChild exampleTree.2.2 5 3 = some (some 1) ∧
    ∃ kids nx, exampleForest.locate none 3 = some (kids, nx) ∧
      (exampleTree.2.2 3).mpChild = Forest.first kids ∧
      cTreeNd_c.getTreeNextNotChild exampleTree.2.2 5 3 = some nx ∧
      ∀ y, nx = some y → y ≠ 3 ∧ y ∉ Forest.preorder kids :=
  ⟨by decide, by decide,
    getTreeNextNotChild_skips_descendants exampleTree.2.1 exampleTree.2.2
      exampleForest 5 3 exampleTree_wellFormed (by decide) (by decide)⟩
